import Mathlib

/-!
Verification development for the worldbank_rtp scraper pipeline
(`src/hdx/scraper/worldbank_rtp/pipeline.py`).

The pipeline's pure core is shallowly embedded here:
* records are association lists of field name to value, mirroring Python
  dicts (insertion-ordered, first-match lookup, in-place update);
* the download collaborator (`Retrieve.download_json`) is modelled as a
  function from the request URL prefix and page offset to the parsed JSON
  response (the URL is determined by configuration and offset);
* external collaborators that are not part of this repository
  (`hdx.utilities.dateparse.parse_date`, `Country.get_country_name_from_iso3`,
  `slugify`, `datetime.strptime`) are abstracted as function parameters;
* `datetime.fromisoformat` (Python standard library) is modelled concretely
  on the core ISO-8601 extended grammar `YYYY-MM-DD[<sep>HH[:MM[:SS[.ffffff]]]
  [+HH:MM[:SS]]]` with full calendar validation, which is the part the
  pipeline's `format_date` exercises.
-/

/-- A JSON-ish field value as the pipeline sees it: a string, or the
datetime object produced by the external date parser (ordered by an
abstract ordinal). -/
inductive Val where
  | vStr (s : String)
  | vDate (d : Nat)
deriving DecidableEq

/-- A record is a Python dict: an insertion-ordered association list of
field name to value. -/
abbrev Record := List (String × Val)

/-- Models Python `record.get(k)`: first binding of the key, if any. -/
def getVal (r : Record) (k : String) : Option Val :=
  (r.find? (fun p => p.1 == k)).map (fun p => p.2)

/-- Models Python `record[k] = v`: replace the first binding in place
(keeping its position, as dicts do), else append a new binding. -/
def setVal : Record → String → Val → Record
  | [], k, v => [(k, v)]
  | (k0, v0) :: t, k, v =>
    if k0 = k then (k0, v) :: t else (k0, v0) :: setVal t k v

/-- Python truthiness of a field value: the empty string is falsy, any
other string is truthy, a datetime object is always truthy. -/
def truthyVal : Val → Bool
  | .vStr s => if s = "" then false else true
  | .vDate _ => true

/-! ## Date model: `datetime.date` / `datetime.datetime` and
`datetime.fromisoformat`, as used by `format_date`. -/

/-- A Python `datetime.date`: year, month, day. -/
structure PyDate where
  year : Nat
  month : Nat
  day : Nat
deriving DecidableEq

/-- A Python `datetime.datetime` as far as `format_date` observes it:
the date part, the time-of-day fields, and whether an offset was given. -/
structure PyDateTime where
  date : PyDate
  hour : Nat := 0
  minute : Nat := 0
  second : Nat := 0
  microsecond : Nat := 0
  hasTz : Bool := false
  tzNeg : Bool := false
  tzHour : Nat := 0
  tzMinute : Nat := 0
  tzSecond : Nat := 0
deriving DecidableEq

/-- Gregorian leap-year rule used by `datetime.date` validation. -/
def isLeap (y : Nat) : Bool :=
  y % 4 = 0 && (y % 100 ≠ 0 || y % 400 = 0)

/-- Days in a month, as `datetime.date` validates them. -/
def daysInMonth (y m : Nat) : Nat :=
  if m = 2 then (if isLeap y then 29 else 28)
  else if m = 4 ∨ m = 6 ∨ m = 9 ∨ m = 11 then 30
  else 31

/-- The `datetime.date` constructor's validity check
(`MINYEAR = 1`, `MAXYEAR = 9999`). -/
def validDateB (d : PyDate) : Bool :=
  1 ≤ d.year && d.year ≤ 9999 &&
  1 ≤ d.month && d.month ≤ 12 &&
  1 ≤ d.day && d.day ≤ daysInMonth d.year d.month

/-- The `datetime.time` validity check. -/
def validTimeB (h mi s : Nat) : Bool :=
  h ≤ 23 && mi ≤ 59 && s ≤ 59

/-- Validity of a UTC-offset magnitude (strictly less than 24 hours). -/
def validOffB (oh om os : Nat) : Bool :=
  oh ≤ 23 && om ≤ 59 && os ≤ 59

/-- The decimal digit character for `k < 10`. -/
def digitChar (k : Nat) : Char := Char.ofNat (48 + k)

/-- Numeric value of a decimal digit character, if it is one. -/
def digitVal? (c : Char) : Option Nat :=
  if c.isDigit then some (c.toNat - 48) else none

/-- Parse exactly two decimal digits. -/
def parse2 : List Char → Option (Nat × List Char)
  | a :: b :: rest => do
    let va ← digitVal? a
    let vb ← digitVal? b
    pure (va * 10 + vb, rest)
  | _ => none

/-- Parse exactly four decimal digits. -/
def parse4 : List Char → Option (Nat × List Char)
  | a :: b :: c :: d :: rest => do
    let va ← digitVal? a
    let vb ← digitVal? b
    let vc ← digitVal? c
    let vd ← digitVal? d
    pure (((va * 10 + vb) * 10 + vc) * 10 + vd, rest)
  | _ => none

/-- Greedy run of decimal digits. -/
def takeDigits : List Char → (List Nat × List Char)
  | [] => ([], [])
  | c :: t =>
    match digitVal? c with
    | some v => let (ds, r) := takeDigits t; (v :: ds, r)
    | none => ([], c :: t)

/-- Fractional-second digits (one to six), scaled to microseconds. -/
def parseFrac (l : List Char) : Option (Nat × List Char) :=
  let (ds, r) := takeDigits l
  if ds.length = 0 ∨ 6 < ds.length then none
  else some (ds.foldl (fun a d => a * 10 + d) 0 * 10 ^ (6 - ds.length), r)

/-- The `YYYY-MM-DD` date prefix of the ISO-8601 extended grammar. -/
def parseDateCore (l : List Char) : Option (PyDate × List Char) := do
  let (y, l1) ← parse4 l
  match l1 with
  | '-' :: l2 => do
    let (m, l3) ← parse2 l2
    match l3 with
    | '-' :: l4 => do
      let (d, l5) ← parse2 l4
      pure (⟨y, m, d⟩, l5)
    | _ => none
  | _ => none

/-- The `HH[:MM[:SS[.ffffff]]]` time-of-day part; returns
`(hour, minute, second, microsecond, rest)`. -/
def parseTimePart (l : List Char) : Option (Nat × Nat × Nat × Nat × List Char) := do
  let (h, l1) ← parse2 l
  match l1 with
  | ':' :: l2 => do
    let (mi, l3) ← parse2 l2
    match l3 with
    | ':' :: l4 => do
      let (s, l5) ← parse2 l4
      match l5 with
      | '.' :: l6 => do
        let (us, l7) ← parseFrac l6
        pure (h, mi, s, us, l7)
      | _ => pure (h, mi, s, 0, l5)
    | _ => pure (h, mi, 0, 0, l3)
  | _ => pure (h, 0, 0, 0, l1)

/-- The `HH:MM[:SS]` tail of a UTC offset, which must consume the rest of
the input. -/
def parseOffsetTail (l : List Char) : Option (Nat × Nat × Nat) := do
  let (oh, l1) ← parse2 l
  match l1 with
  | ':' :: l2 => do
    let (om, l3) ← parse2 l2
    match l3 with
    | [] => pure (oh, om, 0)
    | ':' :: l4 => do
      let (os, l5) ← parse2 l4
      match l5 with
      | [] => pure (oh, om, os)
      | _ => none
    | _ => none
  | _ => none

/-- Models CPython `datetime.datetime.fromisoformat` on the core ISO-8601
extended grammar: `YYYY-MM-DD`, optionally followed by a single separator
character and `HH[:MM[:SS[.ffffff]]]`, optionally followed by a UTC offset
`±HH:MM[:SS]`; the constructor's calendar and clock validation is applied
before a value is produced (an invalid or unparsable string raises, here
`none`). -/
def fromIsoChars (l : List Char) : Option PyDateTime :=
  match parseDateCore l with
  | none => none
  | some (d, rest) =>
    match rest with
    | [] => if validDateB d then some { date := d } else none
    | _ :: tl =>
      match parseTimePart tl with
      | none => none
      | some (h, mi, s, us, rest2) =>
        match rest2 with
        | [] =>
          if validDateB d && validTimeB h mi s then
            some { date := d, hour := h, minute := mi, second := s, microsecond := us }
          else none
        | c :: tl2 =>
          if c = '+' ∨ c = '-' then
            match parseOffsetTail tl2 with
            | none => none
            | some (oh, om, os) =>
              if validDateB d && validTimeB h mi s && validOffB oh om os then
                some { date := d, hour := h, minute := mi, second := s,
                       microsecond := us, hasTz := true, tzNeg := c = '-',
                       tzHour := oh, tzMinute := om, tzSecond := os }
              else none
          else none

/-- Two-digit zero-padded decimal rendering (for months and days). -/
def pad2 (n : Nat) : List Char := [digitChar (n / 10), digitChar (n % 10)]

/-- Four-digit zero-padded decimal rendering (for years). -/
def pad4 (n : Nat) : List Char :=
  [digitChar (n / 1000), digitChar (n / 100 % 10), digitChar (n / 10 % 10),
   digitChar (n % 10)]

/-- The characters of `date.isoformat()`: `YYYY-MM-DD`. -/
def isoChars (d : PyDate) : List Char :=
  pad4 d.year ++ '-' :: (pad2 d.month ++ '-' :: pad2 d.day)

/-- `dt.date().isoformat()` as a string. -/
def isoDateStr (d : PyDate) : String := String.mk (isoChars d)

/-- Models Python `s.replace("Z", "+00:00")`: every `'Z'` character is
replaced by the six characters `+00:00`. -/
def replaceZChars : List Char → List Char
  | [] => []
  | c :: t =>
    (if c = 'Z' then ['+', '0', '0', ':', '0', '0'] else [c]) ++ replaceZChars t

/-- Models Python `str.capitalize`: first character uppercased, the rest
lowercased. -/
def pyCapitalize (s : String) : String :=
  match s.toList with
  | [] => ""
  | c :: t => String.mk (c.toUpper :: t.map Char.toLower)

/-- `Pipeline.format_date` from `pipeline.py`: empty input maps to the
empty string; otherwise the string is parsed (with `datetime.strptime`
when a format is supplied, else `datetime.fromisoformat` after replacing
`"Z"` by `"+00:00"`) and rendered as `dt.date().isoformat()`; any parse
failure falls back to the original input. `strptime` is external and is
abstracted as a function returning `none` on failure. -/
def format_date (strp : String → String → Option PyDateTime)
    (dateStr : String) (dateFmt : Option String) : String :=
  if dateStr = "" then ""
  else
    let parsed :=
      match dateFmt with
      | some fmt => strp dateStr fmt
      | none => fromIsoChars (replaceZChars dateStr.toList)
    match parsed with
    | some dt => isoDateStr dt.date
    | none => dateStr

/-! ## Configuration and the paginated fetcher (`Pipeline.fetch_data`). -/

/-- The configuration surface the pipeline reads. String-valued keys
(`base_url`, the per-model endpoint path, `title`, `description_<model>`)
live in `entries`; the one list-valued key, `tags`, is kept separately.
A key is missing when it has no binding. -/
structure Config where
  entries : List (String × String)
  tags : Option (List String)
deriving DecidableEq

/-- The message of the `KeyError` raised by `configuration[k]`. -/
def keyErrMsg (k : String) : String := "KeyError: " ++ k

/-- Models `configuration[k]` for a string-valued key: the bound value, or
a `KeyError` when the key is missing. -/
def Config.item (cfg : Config) (k : String) : Except String String :=
  match cfg.entries.find? (fun p => p.1 == k) with
  | some p => .ok p.2
  | none => .error (keyErrMsg k)

/-- Models `configuration["tags"]`: the tag list, or a `KeyError`. -/
def Config.itemTags (cfg : Config) : Except String (List String) :=
  match cfg.tags with
  | some ts => .ok ts
  | none => .error (keyErrMsg "tags")

/-- Models `configuration.get(k, d)`: the bound value, or the default. -/
def Config.getD (cfg : Config) (k d : String) : String :=
  match cfg.entries.find? (fun p => p.1 == k) with
  | some p => p.2
  | none => d

/-- The parsed JSON response of one page request:
`{"total": ..., "data": [...]}`. A missing `total` is `none`; a missing
`data` key is already folded into the empty list (the code treats both
identically via `response.get("data", [])`). -/
structure ApiResponse where
  total : Option Nat
  data : List Record

/-- The body of `fetch_data`'s `while` loop once `total` is resolved:
request the page at `offset`; an empty batch ends the stream; otherwise
yield the batch, advance `offset` by the page limit (1000) and continue
unless the new offset has reached `total`. `fuel` is a structural bound on
the iteration count; the loop advances `offset` by 1000 each step and
stops once `offset + 1000 ≥ total`, so any fuel of at least
`total / 1000 + 1` is enough (`fetchGo_fuel_stable` below). -/
def fetchGo (pages : Nat → ApiResponse) (total : Nat) : Nat → Nat → List Record
  | _, 0 => []
  | offset, fuel + 1 =>
    let r := pages offset
    if r.data.isEmpty then []
    else if offset + 1000 < total then r.data ++ fetchGo pages total (offset + 1000) fuel
    else r.data

/-- The record stream of `fetch_data`, given the download collaborator as
a map from page offset to response: the effective `total` is the caller's
`max_records` if supplied, else the first response's `total` (0 when the
field is absent); pagination then runs from offset 0. The first page is
requested exactly once in the Python generator; the model's re-read of
`pages 0` is sound because the collaborator is a pure function here. -/
def fetchRecords (pages : Nat → ApiResponse) (maxRecords : Option Nat) : List Record :=
  let r0 := pages 0
  let total := maxRecords.getD (r0.total.getD 0)
  fetchGo pages total 0 (total / 1000 + 1)

/-- `Pipeline.fetch_data(model, max_records)`: the request URL is
`configuration["base_url"] + configuration[model] + "?limit=...&offset=..."`,
so the two bracket lookups raise `KeyError` before any page is fetched
when a key is missing; the download collaborator is modelled as a map from
the URL prefix and page offset to the parsed response. -/
def fetch_data (cfg : Config) (server : String → Nat → ApiResponse)
    (model : String) (maxRecords : Option Nat) : Except String (List Record) := do
  let base ← cfg.item "base_url"
  let path ← cfg.item model
  pure (fetchRecords (server (base ++ path)) maxRecords)

/-! ## The country aggregator (`Pipeline.aggregate_by_country`). -/

/-- One country's bucket: `{model: [records]}` as an insertion-ordered
association list (the inner `defaultdict(list)`). -/
abbrev Bucket := List (String × List Record)

/-- The aggregator's accumulator `country_data`: `{country: bucket}` as an
insertion-ordered association list (the outer `defaultdict`). -/
abbrev CountryData := List (Val × Bucket)

/-- `country_data[cc][model].append(r)` at the bucket level: append to the
model's list, creating the entry on first use. -/
def bucketAppend : Bucket → String → Record → Bucket
  | [], m, r => [(m, [r])]
  | (k, rs) :: t, m, r =>
    if k = m then (k, rs ++ [r]) :: t else (k, rs) :: bucketAppend t m r

/-- `country_data[cc][model].append(r)`: append into the country's bucket,
creating the country entry on first use. -/
def stateAppend : CountryData → Val → String → Record → CountryData
  | [], cc, m, r => [(cc, [(m, [r])])]
  | (c, b) :: t, cc, m, r =>
    if c = cc then (c, bucketAppend b m r) :: t
    else (c, b) :: stateAppend t cc m r

/-- `country_data[cc]` (read access): the country's bucket, empty if the
country has no entry. -/
def bucketOf : CountryData → Val → Bucket
  | [], _ => []
  | (c, b) :: t, cc => if c = cc then b else bucketOf t cc

/-- `del country_data[cc]`: remove the country's entry. -/
def eraseCC : CountryData → Val → CountryData
  | [], _ => []
  | (c, b) :: t, cc => if c = cc then t else (c, b) :: eraseCC t cc

/-- `sum(len(records) for records in bucket.values())`. -/
def bucketSize (b : Bucket) : Nat := (b.map (fun p => p.2.length)).sum

/-- The country's cumulative buffered record count across all models. -/
def countryCount (cd : CountryData) (cc : Val) : Nat := bucketSize (bucketOf cd cc)

/-- `record.get("ISO3", "Unknown")`: the country key, defaulting to the
sentinel string when the field is absent. -/
def recCC (r : Record) : Val := (getVal r "ISO3").getD (.vStr "Unknown")

/-- `record["DATES"] = parse_date(record.get("DATES"))`: the record as
stored, with the date field normalized in place by the external parser
`pd` (a collaborator from `hdx.utilities.dateparse`, modelled as a total
function). -/
def normRec (pd : Option Val → Val) (r : Record) : Record :=
  setVal r "DATES" (pd (getVal r "DATES"))

/-- The aggregator's state: the live buffer `country_data` and the groups
yielded so far. -/
structure AggSt where
  buf : CountryData
  out : List (Val × Bucket)

/-- The body of the aggregator's inner loop for one record: bucket the
normalized record under its country, then flush (yield and delete) that
country's bucket if its cumulative size has reached 10000. -/
def aggRecord (pd : Option Val → Val) (st : AggSt) (model : String) (r : Record) : AggSt :=
  let cc := recCC r
  let buf2 := stateAppend st.buf cc model (normRec pd r)
  if 10000 ≤ countryCount buf2 cc then
    { buf := eraseCC buf2 cc, out := st.out ++ [(cc, bucketOf buf2 cc)] }
  else
    { buf := buf2, out := st.out }

/-- One step over a `(model, record)` pair. -/
def aggStep (pd : Option Val → Val) (st : AggSt) (p : String × Record) : AggSt :=
  aggRecord pd st p.1 p.2

/-- The aggregator's two nested `for` loops, run over the flattened
`(model, record)` sequence from the empty initial state. -/
def aggRun (pd : Option Val → Val) (pairs : List (String × Record)) : AggSt :=
  pairs.foldl (aggStep pd) ⟨[], []⟩

/-- The flattening of `for model in models: for record in fetch_data(model)`
into one sequence of `(model, record)` pairs, given each model's fetched
stream. -/
def flattenStreams (streams : List (String × List Record)) : List (String × Record) :=
  streams.flatMap (fun p => p.2.map (fun r => (p.1, r)))

/-- `any(model_data.values())`: true when some model list is non-empty. -/
def anyNonEmpty (b : Bucket) : Bool := b.any (fun q => !q.2.isEmpty)

/-- `Pipeline.aggregate_by_country` over the per-model record streams: the
groups yielded mid-stream by threshold flushes, followed by every
remaining country whose bucket has some records. -/
def aggregate_by_country (pd : Option Val → Val)
    (streams : List (String × List Record)) : List (Val × Bucket) :=
  let st := aggRun pd (flattenStreams streams)
  st.out ++ st.buf.filter (fun g => anyNonEmpty g.2)

/-! ## The dataset assembler (`Pipeline.generate_dataset` and
`Pipeline.get_date_range`). -/

/-- Python `min`/`max` comparison on field values: datetimes by ordinal,
strings lexicographically. (CPython raises on a cross-type comparison;
the pipeline never compares across types because every `DATES` value it
collects has been produced by the same date parser. The cross-type cases
are given an arbitrary fixed answer.) -/
def valLe : Val → Val → Bool
  | .vDate a, .vDate b => a ≤ b
  | .vStr a, .vStr b => a ≤ b
  | .vDate _, .vStr _ => true
  | .vStr _, .vDate _ => false

/-- `Pipeline.get_date_range`: collect the truthy `DATES` values of the
records; an empty collection gives `(None, None)`, otherwise
`(min(dates), max(dates))` (Python `min`/`max` keep the earlier element on
ties). -/
def get_date_range (records : List Record) : Option Val × Option Val :=
  let dates := records.filterMap (fun r =>
    match getVal r "DATES" with
    | some v => if truthyVal v then some v else none
    | none => none)
  match dates with
  | [] => (none, none)
  | d :: rest =>
    (some (rest.foldl (fun a b => if valLe a b then a else b) d),
     some (rest.foldl (fun a b => if valLe b a then a else b) d))

/-- One resource produced by `dataset.generate_resource_from_iterable`:
its name, description, CSV header list (the first record's field names in
order), rows, and target filename. -/
structure ResourceSpec where
  name : String
  description : String
  headers : List String
  rows : List Record
  filename : String
deriving DecidableEq

/-- The dataset draft assembled by `generate_dataset` before handoff to
the catalog collaborator. -/
structure DatasetDraft where
  name : String
  title : String
  startDate : Option Val
  endDate : Option Val
  tags : List String
  subnational : Bool
  location : Val
  resources : List ResourceSpec
deriving DecidableEq

/-- The assembler's per-model resource loop: for each `(model, records)`
entry in order, build the resource; `records[0]` raises `IndexError` when
the model's list is empty. The description is looked up with
`configuration.get(f"description_{model}", "")`, defaulting to the empty
string. `slug` is the external `slugify` collaborator. -/
def mkResources (cfg : Config) (slug : String → String) (cname : String) :
    Bucket → Except String (List ResourceSpec)
  | [] => pure []
  | (model, records) :: rest =>
    match records with
    | [] => .error "IndexError: list index out of range"
    | r0 :: _ => do
      let rname := "Real Time " ++ pyCapitalize model ++ " Prices for " ++ cname
      let others ← mkResources cfg slug cname rest
      pure ({ name := rname,
              description := cfg.getD ("description_" ++ model) "",
              headers := r0.map (fun p => p.1),
              rows := records,
              filename := slug rname ++ ".csv" } :: others)

/-- `Pipeline.generate_dataset(country_code, country_model_data)`:
resolve the country name via the external lookup `cn` (a falsy result —
`None` or the empty string — logs a warning and returns `None`); build the
title from `configuration["title"]` and the slugged name; compute the date
range over all models' records; read `configuration["tags"]`; attach the
country location (`add_country_location`, modelled by the external
predicate `locOk`; an `HDXError` is caught, logged, and turns into
`None`); then build one resource per model. `KeyError` and `IndexError`
escape as errors, as in the source. -/
def generate_dataset (cfg : Config) (cn : Val → Option String)
    (slug : String → String) (locOk : Val → Bool)
    (countryCode : Val) (countryModelData : Bucket) :
    Except String (Option DatasetDraft) := do
  match cn countryCode with
  | none => pure none
  | some cname =>
    if cname = "" then pure none
    else do
      let titleCfg ← cfg.item "title"
      let dsTitle := cname ++ " - " ++ titleCfg
      let dsName := slug dsTitle
      let allRecords := countryModelData.flatMap (fun p => p.2)
      let dr := get_date_range allRecords
      let dsTags ← cfg.itemTags
      if locOk countryCode then do
        let resources ← mkResources cfg slug cname countryModelData
        pure (some { name := dsName, title := dsTitle, startDate := dr.1,
                     endDate := dr.2, tags := dsTags, subnational := true,
                     location := countryCode, resources := resources })
      else pure none

/-- The driver loop over aggregated groups (as in `__main__` and the test):
generate each country's dataset, skipping falsy results and collecting the
rest; an uncaught exception aborts the run. -/
def processGroups (cfg : Config) (cn : Val → Option String)
    (slug : String → String) (locOk : Val → Bool) :
    List (Val × Bucket) → Except String (List DatasetDraft)
  | [] => pure []
  | (cc, b) :: rest =>
    match generate_dataset cfg cn slug locOk cc b with
    | .error e => .error e
    | .ok none => processGroups cfg cn slug locOk rest
    | .ok (some d) => do
      let ds ← processGroups cfg cn slug locOk rest
      pure (d :: ds)

/-! ## Concrete fixtures used by witnesses and counterexamples. -/

/-- A sample record with both `ISO3` and `DATES` fields. -/
def recAfg : Record := [("ISO3", Val.vStr "AFG"), ("DATES", Val.vDate 5)]

/-- A second sample record with different field values. -/
def recKen : Record := [("ISO3", Val.vStr "KEN"), ("DATES", Val.vDate 7)]

/-- A sample record with no `ISO3` field. -/
def recNoIso : Record := [("DATES", Val.vDate 9)]

/-- A concrete stand-in for the external `parse_date` collaborator. -/
def pdFix : Option Val → Val := fun o => o.getD (Val.vStr "")

/-- A concrete stand-in for `datetime.strptime` that always fails. -/
def strpFix : String → String → Option PyDateTime := fun _ _ => none

/-- A configuration with `base_url`, one model path, `title` and `tags`,
but no `description_food` key. -/
def cfgFix : Config :=
  { entries := [("base_url", "https://api.example.org/"), ("food", "rtfp"),
                ("title", "Real Time Prices")],
    tags := some ["food security"] }

/-- A country-name lookup that resolves only `AFG`. -/
def cnFix : Val → Option String :=
  fun v => if v = Val.vStr "AFG" then some "Afghanistan" else none

/-- A stand-in for the external `slugify`. -/
def slugFix : String → String := fun s => s

/-- A location-attachment collaborator that accepts every code. -/
def lokFix : Val → Bool := fun _ => true

/-- A server whose first page holds two records though the caller caps the
run at one record. -/
def pagesTwo : Nat → ApiResponse := fun _ => ⟨some 5, [recAfg, recKen]⟩

/-- A server that reports no `total` field and has data on later pages. -/
def pagesNoTotal : Nat → ApiResponse :=
  fun k => ⟨none, if k = 0 then [recAfg] else [recKen]⟩

/-! ## Lemmas about the paginated fetcher. -/

/-- One unfolding step of the loop. -/
theorem fetchGo_succ (pages : Nat → ApiResponse) (total offset fuel : Nat) :
    fetchGo pages total offset (fuel + 1) =
      if (pages offset).data.isEmpty then []
      else if offset + 1000 < total then
        (pages offset).data ++ fetchGo pages total (offset + 1000) fuel
      else (pages offset).data := rfl

/-- Any fuel of at least `(total - offset) / 1000 + 1` yields the same
stream, so the bound chosen in `fetchRecords` is not observable: the loop
really stops through its own two exit conditions. -/
theorem fetchGo_fuel_stable (pages : Nat → ApiResponse) (total : Nat) :
    ∀ f1 f2 offset, total ≤ offset + 1000 * f1 + 1000 →
      total ≤ offset + 1000 * f2 + 1000 →
      fetchGo pages total offset (f1 + 1) = fetchGo pages total offset (f2 + 1) := by
  intro f1
  induction f1 with
  | zero =>
    intro f2 offset h1 h2
    cases f2 with
    | zero => rfl
    | succ g2 =>
      have hstop : ¬ offset + 1000 < total := by omega
      rw [fetchGo_succ pages total offset 0, fetchGo_succ pages total offset (g2 + 1),
        if_neg hstop, if_neg hstop]
  | succ g ih =>
    intro f2 offset h1 h2
    cases f2 with
    | zero =>
      have hstop : ¬ offset + 1000 < total := by omega
      rw [fetchGo_succ pages total offset (g + 1), fetchGo_succ pages total offset 0,
        if_neg hstop, if_neg hstop]
    | succ g2 =>
      by_cases hlt : offset + 1000 < total
      · rw [fetchGo_succ pages total offset (g + 1), fetchGo_succ pages total offset (g2 + 1),
          if_pos hlt, if_pos hlt, ih g2 (offset + 1000) (by omega) (by omega)]
      · rw [fetchGo_succ pages total offset (g + 1), fetchGo_succ pages total offset (g2 + 1),
          if_neg hlt, if_neg hlt]

/-- When every page carries at most the page limit (1000) of records, the
loop's output from `offset` is bounded by `total - offset` plus one page:
the loop stops only after the page that carries the offset past `total`. -/
theorem fetchGo_length_le (pages : Nat → ApiResponse) (total : Nat)
    (hp : ∀ k, ((pages k).data).length ≤ 1000) :
    ∀ fuel offset, (fetchGo pages total offset fuel).length ≤ (total - offset) + 1000 := by
  intro fuel
  induction fuel with
  | zero => intro offset; simp [fetchGo]
  | succ n ih =>
    intro offset
    simp only [fetchGo]
    split
    · simp
    · split
      · rename_i hlt
        have h1 := hp offset
        have h2 := ih (offset + 1000)
        rw [List.length_append]
        omega
      · have h1 := hp offset
        omega

/-- The loop never reads the server-reported `total` fields: its output
depends only on the page contents and the `total` argument. -/
theorem fetchGo_data_eq (p q : Nat → ApiResponse)
    (h : ∀ k, (q k).data = (p k).data) (total : Nat) :
    ∀ fuel offset, fetchGo q total offset fuel = fetchGo p total offset fuel := by
  intro fuel
  induction fuel with
  | zero => intro offset; rfl
  | succ n ih =>
    intro offset
    simp only [fetchGo, h offset]
    split
    · rfl
    · split
      · rw [ih (offset + 1000)]
      · rfl

/-- C3 counterexample: with `max_records = 1` and a first page holding two
records, `fetch_data` yields both records — the cap is not a bound on the
number of records retrieved, refuting "at most n records in total". -/
theorem fetch_cap_counterexample_c3 :
    ¬ (fetchRecords pagesTwo (some 1)).length ≤ 1 := by decide

/-- C3 (amended): `fetch_data(model, max_records = n)` uses `n` as the
hard total in place of the server-reported total — its output depends only
on page contents, never on the `total` fields — and stops requesting pages
once the offset reaches `n`; but it yields whole pages, so under the page
limit of 1000 it retrieves at most `n + 1000` records, not at most `n`. -/
theorem fetch_cap_amended_c3 (pages : Nat → ApiResponse) (n : Nat)
    (hp : ∀ k, ((pages k).data).length ≤ 1000) :
    (fetchRecords pages (some n)).length ≤ n + 1000 ∧
    ∀ pages2 : Nat → ApiResponse, (∀ k, (pages2 k).data = (pages k).data) →
      fetchRecords pages2 (some n) = fetchRecords pages (some n) := by
  constructor
  · have h := fetchGo_length_le pages n hp (n / 1000 + 1) 0
    simpa [fetchRecords] using h
  · intro q hq
    simp only [fetchRecords, Option.getD]
    exact fetchGo_data_eq pages q hq n (n / 1000 + 1) 0

/-- Witness for the amended C3 theorem at a concrete server and cap. -/
theorem fetch_cap_amended_c3_witness :
    (fetchRecords pagesTwo (some 1)).length ≤ 1 + 1000 :=
  (fetch_cap_amended_c3 pagesTwo 1 (fun _ => by simp [pagesTwo])).1

/-- C10: with no caller cap and no `total` field on the first page, the
effective total is 0 and `fetch_data` yields exactly the first page's
records, whatever later pages hold. -/
theorem fetch_no_total_c10 (pages : Nat → ApiResponse)
    (h : (pages 0).total = none) :
    fetchRecords pages none = (pages 0).data := by
  simp only [fetchRecords, Option.getD, h]
  rw [fetchGo_succ]
  cases hd : (pages 0).data with
  | nil => simp [hd]
  | cons a t => simp [hd]

/-- Witness for C10: the no-`total` server with data on later pages still
yields only the first page. -/
theorem fetch_no_total_c10_witness :
    fetchRecords pagesNoTotal none = [recAfg] :=
  fetch_no_total_c10 pagesNoTotal rfl

/-- C6: a country code whose name lookup is unresolvable makes
`generate_dataset` return no dataset (not an exception), and the driver
loop continues with the remaining groups unchanged. -/
theorem generate_dataset_skip_c6 (cfg : Config) (cn : Val → Option String)
    (slug : String → String) (locOk : Val → Bool) (cc : Val) (b : Bucket)
    (rest : List (Val × Bucket)) (h : cn cc = none) :
    generate_dataset cfg cn slug locOk cc b = Except.ok none ∧
    processGroups cfg cn slug locOk ((cc, b) :: rest) =
      processGroups cfg cn slug locOk rest := by
  have h1 : generate_dataset cfg cn slug locOk cc b = Except.ok none := by
    unfold generate_dataset
    rw [h]
    rfl
  refine ⟨h1, ?_⟩
  conv_lhs => unfold processGroups
  rw [h1]

/-- Witness for C6: the unresolvable code "ZZZ" is skipped and the run
moves on to the next group. -/
theorem generate_dataset_skip_c6_witness :
    generate_dataset cfgFix cnFix slugFix lokFix (Val.vStr "ZZZ") [("food", [recKen])] =
      Except.ok none ∧
    processGroups cfgFix cnFix slugFix lokFix
        [(Val.vStr "ZZZ", [("food", [recKen])]), (Val.vStr "AFG", [("food", [recAfg])])] =
      processGroups cfgFix cnFix slugFix lokFix [(Val.vStr "AFG", [("food", [recAfg])])] :=
  generate_dataset_skip_c6 cfgFix cnFix slugFix lokFix (Val.vStr "ZZZ")
    [("food", [recKen])] [(Val.vStr "AFG", [("food", [recAfg])])] (by decide)

/-- C8: `get_date_range` of an empty record list is `(None, None)`, and of
a single record whose date is present and truthy is that date twice. -/
theorem get_date_range_c8 :
    get_date_range [] = (none, none) ∧
    ∀ (r : Record) (d : Val), getVal r "DATES" = some d → truthyVal d = true →
      get_date_range [r] = (some d, some d) := by
  refine ⟨rfl, ?_⟩
  intro r d h1 h2
  simp [get_date_range, h1, h2]

/-- Witness for C8 at a concrete dated record. -/
theorem get_date_range_c8_witness :
    get_date_range [recAfg] = (some (Val.vDate 5), some (Val.vDate 5)) :=
  get_date_range_c8.2 recAfg (Val.vDate 5) (by decide) (by decide)

/-- C4 counterexample: `cfgFix` lacks the `description_food` key, yet
`generate_dataset` succeeds and silently substitutes the empty string as
the resource description (the code uses `configuration.get(key, "")`),
refuting "raises an error rather than substituting a default value". -/
theorem config_description_counterexample_c4 :
    generate_dataset cfgFix cnFix slugFix lokFix (Val.vStr "AFG") [("food", [recAfg])] =
      Except.ok (some
        { name := "Afghanistan - Real Time Prices",
          title := "Afghanistan - Real Time Prices",
          startDate := some (Val.vDate 5), endDate := some (Val.vDate 5),
          tags := ["food security"], subnational := true,
          location := Val.vStr "AFG",
          resources := [{ name := "Real Time Food Prices for Afghanistan",
                          description := "",
                          headers := ["ISO3", "DATES"], rows := [recAfg],
                          filename := "Real Time Food Prices for Afghanistan.csv" }] }) := by
  rfl

/-- C7 counterexample: a group in which a model maps to zero records makes
`generate_dataset` fail with an `IndexError` (from `records[0]`) instead
of completing with that model's resource omitted. -/
theorem generate_empty_model_counterexample_c7 :
    generate_dataset cfgFix cnFix slugFix lokFix (Val.vStr "AFG") [("food", [])] =
      Except.error "IndexError: list index out of range" := by
  rfl

/-- `pure` in the `Except` monad is `Except.ok`. -/
theorem exceptPure {e a : Type} (x : a) : (pure x : Except e a) = Except.ok x := rfl

/-- Bind on a successful `Except` computation. -/
theorem bindOk {e a b : Type} (x : a) (f : a → Except e b) :
    (Except.ok x >>= f) = f x := rfl

/-- Bind on a failed `Except` computation propagates the error. -/
theorem bindError {e a b : Type} (err : e) (f : a → Except e b) :
    ((Except.error err : Except e a) >>= f) = Except.error err := rfl

/-- C4 (amended): the bracket lookups — base URL, per-model endpoint path,
dataset title, tag list — fail immediately (a `KeyError` surfaces) when
the key is missing; but the per-model resource description is looked up
with `configuration.get(key, "")`, so a missing `description_<model>` key
yields a resource with an empty description instead of an error. -/
theorem config_lookup_amended_c4 :
    (∀ (cfg : Config) (k : String),
       cfg.entries.find? (fun p => p.1 == k) = none →
       cfg.item k = Except.error (keyErrMsg k)) ∧
    (∀ (cfg : Config) (server : String → Nat → ApiResponse) (model : String)
       (n : Option Nat) (base e : String),
       cfg.item "base_url" = Except.ok base → cfg.item model = Except.error e →
       fetch_data cfg server model n = Except.error e) ∧
    (∀ (cfg : Config) (cn : Val → Option String) (slug : String → String)
       (locOk : Val → Bool) (cc : Val) (b : Bucket) (nm e : String),
       cn cc = some nm → nm ≠ "" → cfg.item "title" = Except.error e →
       generate_dataset cfg cn slug locOk cc b = Except.error e) ∧
    (∀ (cfg : Config) (cn : Val → Option String) (slug : String → String)
       (locOk : Val → Bool) (cc : Val) (b : Bucket) (nm t : String),
       cn cc = some nm → nm ≠ "" → cfg.item "title" = Except.ok t →
       cfg.tags = none →
       generate_dataset cfg cn slug locOk cc b = Except.error (keyErrMsg "tags")) ∧
    (∀ (cfg : Config) (cn : Val → Option String) (slug : String → String)
       (locOk : Val → Bool) (cc : Val) (m : String) (r0 : Record)
       (rs : List Record) (nm t : String) (ts : List String),
       cn cc = some nm → nm ≠ "" → cfg.item "title" = Except.ok t →
       cfg.tags = some ts → locOk cc = true →
       cfg.entries.find? (fun p => p.1 == "description_" ++ m) = none →
       ∃ ds, generate_dataset cfg cn slug locOk cc [(m, r0 :: rs)] =
               Except.ok (some ds) ∧
             ds.resources.map ResourceSpec.description = [""]) := by
  refine ⟨?_, ?_, ?_, ?_, ?_⟩
  · intro cfg k h
    unfold Config.item
    rw [h]
  · intro cfg server model n base e h1 h2
    rw [fetch_data, h1, h2]
    rfl
  · intro cfg cn slug locOk cc b nm e h1 h2 h3
    simp only [generate_dataset, h1]
    rw [if_neg h2, h3]
    rfl
  · intro cfg cn slug locOk cc b nm t h1 h2 h3 h4
    simp only [generate_dataset, h1]
    rw [if_neg h2, h3, bindOk]
    simp only [Config.itemTags, h4]
    rfl
  · intro cfg cn slug locOk cc m r0 rs nm t ts h1 h2 h3 h4 h5 h6
    have hget : cfg.getD ("description_" ++ m) "" = "" := by
      unfold Config.getD
      rw [h6]
    have hmk : mkResources cfg slug nm [(m, r0 :: rs)] = Except.ok
        [{ name := "Real Time " ++ pyCapitalize m ++ " Prices for " ++ nm,
           description := "",
           headers := r0.map (fun p => p.1), rows := r0 :: rs,
           filename := slug ("Real Time " ++ pyCapitalize m ++ " Prices for " ++ nm)
             ++ ".csv" }] := by
      simp only [mkResources, bindOk, exceptPure, hget]
    refine ⟨{ name := slug (nm ++ " - " ++ t), title := nm ++ " - " ++ t,
              startDate := (get_date_range
                (List.flatMap [(m, r0 :: rs)] (fun p => p.2))).1,
              endDate := (get_date_range
                (List.flatMap [(m, r0 :: rs)] (fun p => p.2))).2,
              tags := ts, subnational := true, location := cc,
              resources := [{ name := "Real Time " ++ pyCapitalize m ++
                                " Prices for " ++ nm,
                              description := "",
                              headers := r0.map (fun p => p.1),
                              rows := r0 :: rs,
                              filename := slug ("Real Time " ++ pyCapitalize m ++
                                " Prices for " ++ nm) ++ ".csv" }] }, ?_, rfl⟩
    simp only [generate_dataset, h1]
    rw [if_neg h2, h3, bindOk]
    simp only [Config.itemTags, h4, bindOk, h5, if_true, hmk, exceptPure]

/-- Witness for the amended C4 theorem: each conjunct exercised at a
concrete configuration — missing keys raise, the missing description
defaults to the empty string. -/
theorem config_lookup_amended_c4_witness :
    Config.item { entries := [], tags := none } "title" =
      Except.error (keyErrMsg "title") ∧
    fetch_data cfgFix (fun _ _ => ⟨none, []⟩) "energy" none =
      Except.error (keyErrMsg "energy") ∧
    (∃ ds, generate_dataset cfgFix cnFix slugFix lokFix (Val.vStr "AFG")
             [("food", [recAfg])] = Except.ok (some ds) ∧
           ds.resources.map ResourceSpec.description = [""]) := by
  refine ⟨?_, ?_, ?_⟩
  · exact config_lookup_amended_c4.1 { entries := [], tags := none } "title" rfl
  · exact config_lookup_amended_c4.2.1 cfgFix (fun _ _ => ⟨none, []⟩) "energy" none
      "https://api.example.org/" (keyErrMsg "energy") rfl rfl
  · exact config_lookup_amended_c4.2.2.2.2 cfgFix cnFix slugFix lokFix
      (Val.vStr "AFG") "food" recAfg [] "Afghanistan" "Real Time Prices"
      ["food security"] (by decide) (by decide) rfl rfl rfl rfl

/-! ## Aggregator bookkeeping lemmas. -/

/-- The list of records a bucket holds for a model (empty when the model
has no entry). -/
def bucketGet : Bucket → String → List Record
  | [], _ => []
  | (k, rs) :: t, m => if k = m then rs else bucketGet t m

/-- All `(country, record)` pairs a group list exposes for a model. -/
def groupPairs (gs : List (Val × Bucket)) (m : String) : List (Val × Record) :=
  gs.flatMap (fun g => (bucketGet g.2 m).map (fun r => (g.1, r)))

/-- Appending a record for model `m2` extends exactly that model's list. -/
theorem bucketGet_bucketAppend (b : Bucket) (m2 m : String) (r : Record) :
    bucketGet (bucketAppend b m2 r) m =
      bucketGet b m ++ (if m2 = m then [r] else []) := by
  induction b with
  | nil =>
    by_cases h : m2 = m
    · subst h; simp [bucketAppend, bucketGet]
    · simp [bucketAppend, bucketGet, h, Ne.symm h]
  | cons p t ih =>
    obtain ⟨k, rs⟩ := p
    by_cases hk : k = m2
    · subst hk
      by_cases hm : k = m
      · subst hm; simp [bucketAppend, bucketGet]
      · simp [bucketAppend, bucketGet, hm]
    · by_cases hm : k = m
      · subst hm
        simp [bucketAppend, bucketGet, hk, Ne.symm hk]
      · simp [bucketAppend, bucketGet, hk, hm, ih]

/-- Specialization: appending for the same model extends its list. -/
theorem bucketGet_bucketAppend_same (b : Bucket) (m : String) (r : Record) :
    bucketGet (bucketAppend b m r) m = bucketGet b m ++ [r] := by
  rw [bucketGet_bucketAppend, if_pos rfl]

/-- Specialization: appending for a different model changes nothing. -/
theorem bucketGet_bucketAppend_ne (b : Bucket) (m2 m : String) (r : Record)
    (h : m2 ≠ m) : bucketGet (bucketAppend b m2 r) m = bucketGet b m := by
  rw [bucketGet_bucketAppend, if_neg h, List.append_nil]

/-- Appending a record for a different model leaves a model's pair list
unchanged. -/
theorem groupPairs_stateAppend_ne (buf : CountryData) (cc : Val) (m2 m : String)
    (r : Record) (h : m2 ≠ m) :
    groupPairs (stateAppend buf cc m2 r) m = groupPairs buf m := by
  induction buf with
  | nil => simp [stateAppend, groupPairs, bucketGet, h]
  | cons p t ih =>
    obtain ⟨c, b⟩ := p
    by_cases hc : c = cc
    · subst hc
      simp [stateAppend, groupPairs, bucketGet_bucketAppend, h]
    · simp only [stateAppend, if_neg hc, groupPairs, List.flatMap_cons]
      simp only [groupPairs] at ih
      rw [ih]

/-- Appending a record for model `m` adds exactly the pair
`(country, record)` to the model's multiset of pairs. -/
theorem groupPairs_stateAppend_same (buf : CountryData) (cc : Val) (m : String)
    (r : Record) :
    (groupPairs (stateAppend buf cc m r) m : Multiset (Val × Record)) =
      (groupPairs buf m : Multiset (Val × Record)) + {(cc, r)} := by
  induction buf with
  | nil => simp [stateAppend, groupPairs, bucketGet]
  | cons p t ih =>
    obtain ⟨c, b⟩ := p
    by_cases hc : c = cc
    · subst hc
      have e1 : stateAppend ((c, b) :: t) c m r = (c, bucketAppend b m r) :: t := by
        simp [stateAppend]
      rw [e1]
      simp only [groupPairs, List.flatMap_cons]
      rw [bucketGet_bucketAppend_same, List.map_append]
      simp only [List.map_cons, List.map_nil]
      rw [← Multiset.coe_add, ← Multiset.coe_add, ← Multiset.coe_singleton,
        ← Multiset.coe_add]
      abel
    · simp only [stateAppend, if_neg hc, groupPairs, List.flatMap_cons]
      simp only [groupPairs] at ih
      rw [← Multiset.coe_add, ← Multiset.coe_add, ih]
      abel

/-- Combined form of the two append lemmas. -/
theorem groupPairs_stateAppend (buf : CountryData) (cc : Val) (m2 m : String)
    (r : Record) :
    (groupPairs (stateAppend buf cc m2 r) m : Multiset (Val × Record)) =
      (groupPairs buf m : Multiset (Val × Record)) +
        (if m2 = m then {(cc, r)} else 0) := by
  by_cases h : m2 = m
  · subst h
    rw [if_pos rfl, groupPairs_stateAppend_same]
  · rw [if_neg h, groupPairs_stateAppend_ne buf cc m2 m r h, add_zero]

/-- A country's bucket plus the rest of the accumulator carry exactly the
accumulator's pairs: flushing (emit, then delete) loses and duplicates
nothing. -/
theorem groupPairs_flush (buf : CountryData) (cc : Val) (m : String) :
    (groupPairs buf m : Multiset (Val × Record)) =
      ((bucketGet (bucketOf buf cc) m).map (fun r => (cc, r)) : Multiset (Val × Record)) +
        (groupPairs (eraseCC buf cc) m : Multiset (Val × Record)) := by
  induction buf with
  | nil => simp [bucketOf, eraseCC, groupPairs, bucketGet]
  | cons p t ih =>
    obtain ⟨c, b⟩ := p
    by_cases hc : c = cc
    · subst hc
      have e1 : bucketOf ((c, b) :: t) c = b := by simp [bucketOf]
      have e2 : eraseCC ((c, b) :: t) c = t := by simp [eraseCC]
      rw [e1, e2]
      simp only [groupPairs, List.flatMap_cons]
      rw [← Multiset.coe_add]
    · have e1 : bucketOf ((c, b) :: t) cc = bucketOf t cc := by simp [bucketOf, hc]
      have e2 : eraseCC ((c, b) :: t) cc = (c, b) :: eraseCC t cc := by
        simp [eraseCC, hc]
      rw [e1, e2]
      simp only [groupPairs, List.flatMap_cons]
      simp only [groupPairs] at ih
      rw [← Multiset.coe_add, ← Multiset.coe_add, ih]
      abel

/-- Group lists concatenate. -/
theorem groupPairs_append (g1 g2 : List (Val × Bucket)) (m : String) :
    groupPairs (g1 ++ g2) m = groupPairs g1 m ++ groupPairs g2 m := by
  simp [groupPairs]

/-- The multiset of pairs held by an aggregator state, output and buffer
together. -/
def pairsOf (st : AggSt) (m : String) : Multiset (Val × Record) :=
  (groupPairs st.out m : Multiset (Val × Record)) +
    (groupPairs st.buf m : Multiset (Val × Record))

/-- One aggregator step adds exactly the normalized record (tagged with
its country) to the state's pairs for the record's model, whether or not
the step flushes. -/
theorem aggRecord_pairs (pd : Option Val → Val) (st : AggSt) (m2 m : String)
    (r : Record) :
    pairsOf (aggRecord pd st m2 r) m =
      pairsOf st m + (if m2 = m then {(recCC r, normRec pd r)} else 0) := by
  unfold aggRecord pairsOf
  by_cases hth : 10000 ≤ countryCount (stateAppend st.buf (recCC r) m2 (normRec pd r)) (recCC r)
  · rw [if_pos hth]
    dsimp only
    rw [groupPairs_append]
    have hgp : groupPairs [(recCC r, bucketOf (stateAppend st.buf (recCC r) m2 (normRec pd r)) (recCC r))] m =
        (bucketGet (bucketOf (stateAppend st.buf (recCC r) m2 (normRec pd r)) (recCC r)) m).map
          (fun r2 => (recCC r, r2)) := by
      simp [groupPairs]
    rw [← Multiset.coe_add, hgp]
    have hfl := groupPairs_flush (stateAppend st.buf (recCC r) m2 (normRec pd r)) (recCC r) m
    have happ := groupPairs_stateAppend st.buf (recCC r) m2 m (normRec pd r)
    rw [add_assoc, add_comm
      ((bucketGet (bucketOf (stateAppend st.buf (recCC r) m2 (normRec pd r)) (recCC r)) m).map
          (fun r2 => (recCC r, r2)) : Multiset (Val × Record))]
    have key : (groupPairs (eraseCC (stateAppend st.buf (recCC r) m2 (normRec pd r)) (recCC r)) m :
          Multiset (Val × Record)) +
        ((bucketGet (bucketOf (stateAppend st.buf (recCC r) m2 (normRec pd r)) (recCC r)) m).map
          (fun r2 => (recCC r, r2)) : Multiset (Val × Record)) =
        (groupPairs st.buf m : Multiset (Val × Record)) +
          (if m2 = m then {(recCC r, normRec pd r)} else 0) := by
      rw [add_comm, ← hfl, happ]
    rw [key]
    abel
  · rw [if_neg hth]
    dsimp only
    rw [groupPairs_stateAppend st.buf (recCC r) m2 m (normRec pd r)]
    abel

/-- Folding the aggregator over a pair sequence adds exactly the
normalized, country-tagged records of the given model. -/
theorem aggRun_pairs (pd : Option Val → Val) (m : String) :
    ∀ (pairs : List (String × Record)) (st : AggSt),
      pairsOf (pairs.foldl (aggStep pd) st) m =
        pairsOf st m +
          ((pairs.filter (fun p => p.1 == m)).map
            (fun p => (recCC p.2, normRec pd p.2)) : Multiset (Val × Record)) := by
  intro pairs
  induction pairs with
  | nil => intro st; simp
  | cons p t ih =>
    intro st
    obtain ⟨m2, r⟩ := p
    rw [List.foldl_cons, ih]
    show pairsOf (aggRecord pd st m2 r) m + _ = _
    rw [aggRecord_pairs]
    by_cases h : m2 = m
    · subst h
      rw [if_pos rfl]
      have hf : List.filter (fun p => p.1 == m2) ((m2, r) :: t) =
          (m2, r) :: List.filter (fun p => p.1 == m2) t := by
        simp [List.filter]
      rw [hf, List.map_cons, ← Multiset.cons_coe, ← Multiset.singleton_add]
      abel
    · rw [if_neg h]
      have hb : (m2 == m) = false := beq_eq_false_iff_ne.mpr h
      have hf : List.filter (fun p => p.1 == m) ((m2, r) :: t) =
          List.filter (fun p => p.1 == m) t := by
        simp only [List.filter, hb]
      rw [hf]
      abel

/-- A bucket all of whose model lists are empty exposes no records. -/
theorem bucketGet_eq_nil_of_not_any (b : Bucket) (m : String)
    (h : anyNonEmpty b = false) : bucketGet b m = [] := by
  induction b with
  | nil => rfl
  | cons q t ih =>
    obtain ⟨k, rs⟩ := q
    simp only [anyNonEmpty, List.any_cons, Bool.or_eq_false_iff,
      Bool.not_eq_true'] at h
    obtain ⟨h1, h2⟩ := h
    have hrs : rs = [] := by simpa using h1
    simp only [bucketGet]
    by_cases hk : k = m
    · rw [if_pos hk, hrs]
    · rw [if_neg hk]
      exact ih h2

/-- Dropping all-empty buckets (the aggregator's final
`if any(model_data.values())` guard) changes no model's pair list. -/
theorem groupPairs_filter_nonEmpty (buf : List (Val × Bucket)) (m : String) :
    groupPairs (buf.filter (fun g => anyNonEmpty g.2)) m = groupPairs buf m := by
  induction buf with
  | nil => rfl
  | cons g t ih =>
    by_cases hg : anyNonEmpty g.2
    · have hcons : List.filter (fun g => anyNonEmpty g.2) (g :: t) =
          g :: List.filter (fun g => anyNonEmpty g.2) t :=
        List.filter_cons_of_pos hg
      rw [hcons]
      simp only [groupPairs, List.flatMap_cons]
      simp only [groupPairs] at ih
      rw [ih]
    · have hcons : List.filter (fun g => anyNonEmpty g.2) (g :: t) =
          List.filter (fun g => anyNonEmpty g.2) t :=
        List.filter_cons_of_neg hg
      rw [hcons]
      simp only [groupPairs, List.flatMap_cons]
      rw [bucketGet_eq_nil_of_not_any g.2 m (by simpa using hg)]
      simpa [groupPairs] using ih

/-- Records tagged with a different model never pass the model filter. -/
theorem filter_map_pair_ne (m2 m : String) (h : m2 ≠ m) (rs : List Record) :
    (rs.map (fun r => (m2, r))).filter (fun p => p.1 == m) = [] := by
  have hb : (m2 == m) = false := beq_eq_false_iff_ne.mpr h
  induction rs with
  | nil => rfl
  | cons a t ih =>
    simp only [List.map_cons, List.filter, hb]
    exact ih

/-- Records tagged with the model itself all pass the model filter. -/
theorem filter_map_pair_same (m : String) (rs : List Record) :
    (rs.map (fun r => (m, r))).filter (fun p => p.1 == m) = rs.map (fun r => (m, r)) := by
  induction rs with
  | nil => rfl
  | cons a t ih =>
    simp only [List.map_cons, List.filter, beq_self_eq_true]
    rw [ih]

/-- A model absent from every stream contributes nothing to the flattened
filtered sequence. -/
theorem filter_flatten_not_mem (m : String) :
    ∀ streams : List (String × List Record), m ∉ streams.map Prod.fst →
      (flattenStreams streams).filter (fun p => p.1 == m) = [] := by
  intro streams
  induction streams with
  | nil => intro _; rfl
  | cons s t ih =>
    intro h
    simp only [List.map_cons, List.mem_cons, not_or] at h
    obtain ⟨h1, h2⟩ := h
    have e : flattenStreams (s :: t) =
        s.2.map (fun r => (s.1, r)) ++ flattenStreams t := by
      simp [flattenStreams]
    rw [e, List.filter_append, filter_map_pair_ne s.1 m (Ne.symm h1) s.2, ih h2]
    rfl

/-- With distinct model names, the flattened sequence filtered to one
model is exactly that model's stream, in order. -/
theorem filter_flatten_eq (streams : List (String × List Record)) (m : String)
    (rs : List Record) (hnd : (streams.map Prod.fst).Nodup)
    (hm : (m, rs) ∈ streams) :
    (flattenStreams streams).filter (fun p => p.1 == m) =
      rs.map (fun r => (m, r)) := by
  induction streams with
  | nil => exact absurd hm (List.not_mem_nil _)
  | cons s t ih =>
    have e : flattenStreams (s :: t) =
        s.2.map (fun r => (s.1, r)) ++ flattenStreams t := by
      simp [flattenStreams]
    rw [List.map_cons, List.nodup_cons] at hnd
    obtain ⟨hh, ht⟩ := hnd
    rcases List.mem_cons.mp hm with he | hmt
    · subst he
      dsimp only at e hh
      rw [e, List.filter_append, filter_map_pair_same, filter_flatten_not_mem m t hh,
        List.append_nil]
    · have hs1 : s.1 ≠ m := by
        intro hcontra
        exact hh (hcontra ▸ List.mem_map_of_mem Prod.fst hmt)
      rw [e, List.filter_append, filter_map_pair_ne s.1 m hs1, ih ht hmt,
        List.nil_append]

/-- Inversion: a pair exposed by a group list comes from one of its
groups, under that group's country key. -/
theorem groupPairs_mem (gs : List (Val × Bucket)) (m : String) (p : Val × Record)
    (h : p ∈ groupPairs gs m) :
    ∃ g ∈ gs, g.1 = p.1 ∧ p.2 ∈ bucketGet g.2 m := by
  unfold groupPairs at h
  rw [List.mem_flatMap] at h
  obtain ⟨g, hg, hmem⟩ := h
  rw [List.mem_map] at hmem
  obtain ⟨r2, hr2, heq⟩ := hmem
  subst heq
  exact ⟨g, hg, rfl, hr2⟩

/-- C1: over any finite per-model record streams with distinct model
names, the `(country, record)` pairs that `aggregate_by_country` emits for
a model are exactly (as a multiset — no loss, no duplication) the model's
fetched records, normalized and tagged with their country key; and a
record with no `ISO3` field surfaces in a group keyed by the sentinel
`"Unknown"` rather than being dropped. -/
theorem aggregate_partition_c1 (pd : Option Val → Val)
    (streams : List (String × List Record)) (m : String) (rs : List Record)
    (hnd : (streams.map Prod.fst).Nodup) (hm : (m, rs) ∈ streams) :
    (groupPairs (aggregate_by_country pd streams) m : Multiset (Val × Record)) =
      (rs.map (fun r => (recCC r, normRec pd r)) : Multiset (Val × Record)) ∧
    ∀ r ∈ rs, getVal r "ISO3" = none →
      ∃ g ∈ aggregate_by_country pd streams, g.1 = Val.vStr "Unknown" ∧
        normRec pd r ∈ bucketGet g.2 m := by
  have hmain : (groupPairs (aggregate_by_country pd streams) m : Multiset (Val × Record)) =
      (rs.map (fun r => (recCC r, normRec pd r)) : Multiset (Val × Record)) := by
    unfold aggregate_by_country
    rw [groupPairs_append, groupPairs_filter_nonEmpty, ← Multiset.coe_add]
    have hrun := aggRun_pairs pd m (flattenStreams streams) ⟨[], []⟩
    unfold pairsOf at hrun
    rw [filter_flatten_eq streams m rs hnd hm, List.map_map] at hrun
    unfold aggRun
    rw [hrun]
    have hz : (groupPairs (⟨[], []⟩ : AggSt).out m : Multiset (Val × Record)) +
        (groupPairs (⟨[], []⟩ : AggSt).buf m : Multiset (Val × Record)) = 0 := by
      simp [groupPairs]
    rw [hz, zero_add]
    rfl
  refine ⟨hmain, ?_⟩
  intro r hr hiso
  have hcc : recCC r = Val.vStr "Unknown" := by
    unfold recCC
    rw [hiso]
    rfl
  have hpair : (recCC r, normRec pd r) ∈ rs.map (fun r => (recCC r, normRec pd r)) :=
    List.mem_map_of_mem _ hr
  have hmem : (recCC r, normRec pd r) ∈ groupPairs (aggregate_by_country pd streams) m := by
    have h2 : ((recCC r, normRec pd r) : Val × Record) ∈
        (groupPairs (aggregate_by_country pd streams) m : Multiset (Val × Record)) := by
      rw [hmain]
      exact Multiset.mem_coe.mpr hpair
    exact Multiset.mem_coe.mp h2
  obtain ⟨g, hg, hfst, hsnd⟩ := groupPairs_mem _ m _ hmem
  exact ⟨g, hg, by rw [hfst, hcc], hsnd⟩

/-- Witness for C1 at a three-record, two-model concrete run (one record
lacking `ISO3`): the multiset identity for model "food". -/
theorem aggregate_partition_c1_witness :
    (groupPairs (aggregate_by_country pdFix
        [("food", [recAfg, recNoIso]), ("energy", [recKen])]) "food" :
      Multiset (Val × Record)) =
      ([recAfg, recNoIso].map (fun r => (recCC r, normRec pdFix r)) :
        Multiset (Val × Record)) :=
  (aggregate_partition_c1 pdFix [("food", [recAfg, recNoIso]), ("energy", [recKen])]
    "food" [recAfg, recNoIso] (by decide) (by decide)).1

/-! ## Threshold-flush invariant (C2). -/

/-- Appending one record grows the bucket's size by one. -/
theorem bucketSize_bucketAppend (b : Bucket) (m : String) (r : Record) :
    bucketSize (bucketAppend b m r) = bucketSize b + 1 := by
  induction b with
  | nil => simp [bucketAppend, bucketSize]
  | cons q t ih =>
    obtain ⟨k, rs⟩ := q
    by_cases hk : k = m
    · simp [bucketAppend, hk, bucketSize]
      omega
    · simp [bucketAppend, hk, bucketSize] at ih ⊢
      omega

/-- Appending lands in the (first) bucket of the record's country. -/
theorem bucketOf_stateAppend_same (cd : CountryData) (cc : Val) (m : String)
    (r : Record) :
    bucketOf (stateAppend cd cc m r) cc = bucketAppend (bucketOf cd cc) m r := by
  induction cd with
  | nil => simp [stateAppend, bucketOf, bucketAppend]
  | cons q t ih =>
    obtain ⟨c, b⟩ := q
    by_cases hc : c = cc
    · subst hc
      simp [stateAppend, bucketOf]
    · simp [stateAppend, bucketOf, hc, ih]

/-- Appending for one country leaves every other country's bucket alone. -/
theorem bucketOf_stateAppend_ne (cd : CountryData) (cc c : Val) (m : String)
    (r : Record) (h : c ≠ cc) :
    bucketOf (stateAppend cd cc m r) c = bucketOf cd c := by
  induction cd with
  | nil => simp [stateAppend, bucketOf, Ne.symm h]
  | cons q t ih =>
    obtain ⟨c0, b⟩ := q
    by_cases hc : c0 = cc
    · subst hc
      simp [stateAppend, bucketOf, Ne.symm h]
    · by_cases hc2 : c0 = c
      · subst hc2
        simp [stateAppend, bucketOf, hc]
      · simp [stateAppend, bucketOf, hc, hc2, ih]

/-- The cumulative count of the appended-to country goes up by one. -/
theorem countryCount_stateAppend_same (cd : CountryData) (cc : Val) (m : String)
    (r : Record) :
    countryCount (stateAppend cd cc m r) cc = countryCount cd cc + 1 := by
  unfold countryCount
  rw [bucketOf_stateAppend_same, bucketSize_bucketAppend]

/-- Other countries' cumulative counts are unchanged by an append. -/
theorem countryCount_stateAppend_ne (cd : CountryData) (cc c : Val) (m : String)
    (r : Record) (h : c ≠ cc) :
    countryCount (stateAppend cd cc m r) c = countryCount cd c := by
  unfold countryCount
  rw [bucketOf_stateAppend_ne cd cc c m r h]

/-- The country keys of the accumulator, in insertion order. -/
def keysOf (cd : CountryData) : List Val := cd.map Prod.fst

/-- A country with no entry has the empty bucket. -/
theorem bucketOf_eq_nil_of_not_mem (cd : CountryData) (cc : Val)
    (h : cc ∉ keysOf cd) : bucketOf cd cc = [] := by
  induction cd with
  | nil => rfl
  | cons q t ih =>
    simp only [keysOf, List.map_cons, List.mem_cons, not_or] at h
    obtain ⟨h1, h2⟩ := h
    simp only [bucketOf]
    rw [if_neg (fun he => h1 he.symm)]
    exact ih h2

/-- Appending can only add the appended country's key. -/
theorem mem_keysOf_stateAppend (cd : CountryData) (cc x : Val) (m : String)
    (r : Record) (h : x ∈ keysOf (stateAppend cd cc m r)) :
    x ∈ keysOf cd ∨ x = cc := by
  induction cd with
  | nil =>
    simp only [stateAppend, keysOf, List.map_cons, List.map_nil,
      List.mem_singleton] at h
    exact Or.inr h
  | cons q t ih =>
    obtain ⟨c, b⟩ := q
    by_cases hc : c = cc
    · subst hc
      simp only [stateAppend, if_pos rfl, keysOf, List.map_cons] at h ⊢
      exact Or.inl h
    · simp only [stateAppend, if_neg hc, keysOf, List.map_cons, List.mem_cons] at h ⊢
      rcases h with h | h
      · exact Or.inl (Or.inl h)
      · rcases ih h with h3 | h3
        · exact Or.inl (Or.inr h3)
        · exact Or.inr h3

/-- Appending preserves distinctness of the country keys. -/
theorem nodup_keysOf_stateAppend (cd : CountryData) (cc : Val) (m : String)
    (r : Record) (h : (keysOf cd).Nodup) :
    (keysOf (stateAppend cd cc m r)).Nodup := by
  induction cd with
  | nil => simp [stateAppend, keysOf]
  | cons q t ih =>
    obtain ⟨c, b⟩ := q
    simp only [keysOf, List.map_cons, List.nodup_cons] at h
    obtain ⟨h1, h2⟩ := h
    by_cases hc : c = cc
    · subst hc
      have e : stateAppend ((c, b) :: t) c m r = (c, bucketAppend b m r) :: t := by
        simp [stateAppend]
      rw [e]
      simp only [keysOf, List.map_cons, List.nodup_cons]
      exact ⟨h1, h2⟩
    · have e : stateAppend ((c, b) :: t) cc m r = (c, b) :: stateAppend t cc m r := by
        simp [stateAppend, hc]
      rw [e]
      simp only [keysOf, List.map_cons, List.nodup_cons]
      refine ⟨?_, ih h2⟩
      intro hmem
      rcases mem_keysOf_stateAppend t cc c m r hmem with h3 | h3
      · exact h1 h3
      · exact hc h3

/-- Deleting an entry can only remove keys. -/
theorem mem_keysOf_eraseCC (cd : CountryData) (cc x : Val)
    (h : x ∈ keysOf (eraseCC cd cc)) : x ∈ keysOf cd := by
  induction cd with
  | nil => simp [eraseCC, keysOf] at h
  | cons q t ih =>
    obtain ⟨c, b⟩ := q
    by_cases hc : c = cc
    · subst hc
      have e : eraseCC ((c, b) :: t) c = t := by simp [eraseCC]
      rw [e] at h
      simp only [keysOf, List.map_cons, List.mem_cons]
      exact Or.inr h
    · have e : eraseCC ((c, b) :: t) cc = (c, b) :: eraseCC t cc := by
        simp [eraseCC, hc]
      rw [e] at h
      simp only [keysOf, List.map_cons, List.mem_cons] at h ⊢
      rcases h with h | h
      · exact Or.inl h
      · exact Or.inr (ih h)

/-- Deleting a country's entry keeps the remaining keys distinct. -/
theorem nodup_keysOf_eraseCC (cd : CountryData) (cc : Val)
    (h : (keysOf cd).Nodup) : (keysOf (eraseCC cd cc)).Nodup := by
  induction cd with
  | nil => simp [eraseCC, keysOf]
  | cons q t ih =>
    obtain ⟨c, b⟩ := q
    simp only [keysOf, List.map_cons, List.nodup_cons] at h
    obtain ⟨h1, h2⟩ := h
    by_cases hc : c = cc
    · subst hc
      have e : eraseCC ((c, b) :: t) c = t := by simp [eraseCC]
      rw [e]
      exact h2
    · have e : eraseCC ((c, b) :: t) cc = (c, b) :: eraseCC t cc := by
        simp [eraseCC, hc]
      rw [e]
      simp only [keysOf, List.map_cons, List.nodup_cons]
      exact ⟨fun hmem => h1 (mem_keysOf_eraseCC t cc c hmem), ih h2⟩

/-- Right after a delete, the deleted country's buffered count is zero
(the accumulator's keys are distinct, so no second entry survives). -/
theorem countryCount_eraseCC_self (cd : CountryData) (cc : Val)
    (h : (keysOf cd).Nodup) : countryCount (eraseCC cd cc) cc = 0 := by
  unfold countryCount
  suffices hb : bucketOf (eraseCC cd cc) cc = [] by
    rw [hb]
    rfl
  induction cd with
  | nil => rfl
  | cons q t ih =>
    obtain ⟨c, b⟩ := q
    simp only [keysOf, List.map_cons, List.nodup_cons] at h
    obtain ⟨h1, h2⟩ := h
    by_cases hc : c = cc
    · subst hc
      have e : eraseCC ((c, b) :: t) c = t := by simp [eraseCC]
      rw [e]
      exact bucketOf_eq_nil_of_not_mem t c h1
    · have e : eraseCC ((c, b) :: t) cc = (c, b) :: eraseCC t cc := by
        simp [eraseCC, hc]
      rw [e]
      simp only [bucketOf, if_neg hc]
      exact ih h2

/-- Deleting one country does not change another country's bucket. -/
theorem bucketOf_eraseCC_ne (cd : CountryData) (cc c : Val) (h : c ≠ cc) :
    bucketOf (eraseCC cd cc) c = bucketOf cd c := by
  induction cd with
  | nil => rfl
  | cons q t ih =>
    obtain ⟨c0, b⟩ := q
    by_cases hc : c0 = cc
    · subst hc
      have e : eraseCC ((c0, b) :: t) c0 = t := by simp [eraseCC]
      rw [e]
      simp only [bucketOf]
      rw [if_neg (fun he : c0 = c => h he.symm)]
    · have e : eraseCC ((c0, b) :: t) cc = (c0, b) :: eraseCC t cc := by
        simp [eraseCC, hc]
      rw [e]
      by_cases hc2 : c0 = c
      · subst hc2
        simp [bucketOf]
      · simp only [bucketOf, if_neg hc2]
        exact ih

/-- The aggregator's state invariant: every buffered country holds fewer
than 10000 records, and the accumulator's country keys are distinct. -/
def aggInv (st : AggSt) : Prop :=
  (∀ c, countryCount st.buf c < 10000) ∧ (keysOf st.buf).Nodup

/-- One step preserves the invariant: the append raises one count by one
(to at most 10000); at 10000 the flush resets it to zero. -/
theorem aggRecord_inv (pd : Option Val → Val) (st : AggSt) (m : String)
    (r : Record) (h : aggInv st) : aggInv (aggRecord pd st m r) := by
  obtain ⟨hlt, hnd⟩ := h
  unfold aggRecord
  by_cases hth : 10000 ≤ countryCount (stateAppend st.buf (recCC r) m (normRec pd r)) (recCC r)
  · rw [if_pos hth]
    refine ⟨?_, nodup_keysOf_eraseCC _ _ (nodup_keysOf_stateAppend st.buf (recCC r) m (normRec pd r) hnd)⟩
    intro c
    by_cases hc : c = recCC r
    · subst hc
      rw [countryCount_eraseCC_self _ _ (nodup_keysOf_stateAppend st.buf (recCC r) m (normRec pd r) hnd)]
      omega
    · show countryCount (eraseCC (stateAppend st.buf (recCC r) m (normRec pd r)) (recCC r)) c < 10000
      unfold countryCount
      rw [bucketOf_eraseCC_ne _ _ _ hc, bucketOf_stateAppend_ne _ _ _ _ _ hc]
      exact hlt c
  · rw [if_neg hth]
    refine ⟨?_, nodup_keysOf_stateAppend st.buf (recCC r) m (normRec pd r) hnd⟩
    intro c
    by_cases hc : c = recCC r
    · subst hc
      rw [countryCount_stateAppend_same] at hth ⊢
      omega
    · rw [countryCount_stateAppend_ne _ _ _ _ _ hc]
      exact hlt c

/-- The invariant holds at every reachable state of the run. -/
theorem aggRun_inv (pd : Option Val → Val) (pairs : List (String × Record)) :
    aggInv (aggRun pd pairs) := by
  unfold aggRun
  have hgen : ∀ (l : List (String × Record)) (st : AggSt), aggInv st →
      aggInv (l.foldl (aggStep pd) st) := by
    intro l
    induction l with
    | nil => intro st h; exact h
    | cons p t ih =>
      intro st h
      rw [List.foldl_cons]
      exact ih _ (aggRecord_inv pd st p.1 p.2 h)
  refine hgen _ _ ⟨?_, ?_⟩
  · intro c
    show bucketSize (bucketOf [] c) < 10000
    simp [bucketOf, bucketSize]
  · simp [keysOf]

/-- C2: at the start of processing any record of the aggregator's run,
every country's cumulative buffered count (summed across models) is below
10000; and whenever the append carries a country's count to the threshold,
that country's group is emitted immediately (appended to the output right
then) and its buffered count is zero directly after the flush. -/
theorem aggregate_flush_invariant_c2 (pd : Option Val → Val)
    (streams : List (String × List Record)) (pre suf : List (String × Record))
    (m : String) (r : Record)
    (_hsplit : flattenStreams streams = pre ++ (m, r) :: suf) :
    (∀ c, countryCount (aggRun pd pre).buf c < 10000) ∧
    (10000 ≤ countryCount (stateAppend (aggRun pd pre).buf (recCC r) m
        (normRec pd r)) (recCC r) →
      (aggRun pd (pre ++ [(m, r)])).out =
        (aggRun pd pre).out ++
          [(recCC r, bucketOf (stateAppend (aggRun pd pre).buf (recCC r) m
            (normRec pd r)) (recCC r))] ∧
      countryCount (aggRun pd (pre ++ [(m, r)])).buf (recCC r) = 0) := by
  obtain ⟨hlt, hnd⟩ := aggRun_inv pd pre
  refine ⟨hlt, ?_⟩
  intro hth
  have hstep : aggRun pd (pre ++ [(m, r)]) = aggRecord pd (aggRun pd pre) m r := by
    unfold aggRun
    rw [List.foldl_append]
    rfl
  rw [hstep]
  unfold aggRecord
  rw [if_pos hth]
  exact ⟨rfl, countryCount_eraseCC_self _ _
    (nodup_keysOf_stateAppend _ _ _ _ hnd)⟩

/-- Witness for C2 at the first record of a concrete run. -/
theorem aggregate_flush_invariant_c2_witness :
    countryCount (aggRun pdFix []).buf (Val.vStr "AFG") < 10000 :=
  (aggregate_flush_invariant_c2 pdFix [("food", [recAfg])] [] [] "food" recAfg
    rfl).1 (Val.vStr "AFG")

/-! ## Non-empty model lists in emitted groups (C7). -/

/-- Every model list in the bucket is non-empty. -/
def bucketWF (b : Bucket) : Prop := ∀ p ∈ b, p.2 ≠ []

/-- Every bucket in the group list has only non-empty model lists. -/
def groupsWF (gs : List (Val × Bucket)) : Prop := ∀ g ∈ gs, bucketWF g.2

/-- Appending keeps model lists non-empty (it extends one or creates a
singleton). -/
theorem bucketWF_bucketAppend (b : Bucket) (m : String) (r : Record)
    (h : bucketWF b) : bucketWF (bucketAppend b m r) := by
  induction b with
  | nil =>
    intro p hp
    simp only [bucketAppend, List.mem_singleton] at hp
    subst hp
    simp
  | cons q t ih =>
    obtain ⟨k, rs⟩ := q
    have hh : (k, rs).2 ≠ [] := h (k, rs) (List.mem_cons_self _ _)
    have ht : bucketWF t := fun p hp => h p (List.mem_cons_of_mem _ hp)
    intro p hp
    by_cases hk : k = m
    · rw [show bucketAppend ((k, rs) :: t) m r = (k, rs ++ [r]) :: t from by
        simp [bucketAppend, hk]] at hp
      rcases List.mem_cons.mp hp with he | hmem
      · subst he
        simp
      · exact ht p hmem
    · rw [show bucketAppend ((k, rs) :: t) m r = (k, rs) :: bucketAppend t m r from by
        simp [bucketAppend, hk]] at hp
      rcases List.mem_cons.mp hp with he | hmem
      · subst he
        exact hh
      · exact ih ht p hmem

/-- Appending a record into the accumulator preserves the property. -/
theorem groupsWF_stateAppend (cd : CountryData) (cc : Val) (m : String)
    (r : Record) (h : groupsWF cd) : groupsWF (stateAppend cd cc m r) := by
  induction cd with
  | nil =>
    intro g hg
    simp only [stateAppend, List.mem_singleton] at hg
    subst hg
    intro p hp
    simp only [List.mem_singleton] at hp
    subst hp
    simp
  | cons q t ih =>
    obtain ⟨c, b⟩ := q
    have hh : bucketWF b := h (c, b) (List.mem_cons_self _ _)
    have ht : groupsWF t := fun g hg => h g (List.mem_cons_of_mem _ hg)
    intro g hg
    by_cases hc : c = cc
    · rw [show stateAppend ((c, b) :: t) cc m r = (c, bucketAppend b m r) :: t from by
        simp [stateAppend, hc]] at hg
      rcases List.mem_cons.mp hg with he | hmem
      · subst he
        exact bucketWF_bucketAppend b m r hh
      · exact ht g hmem
    · rw [show stateAppend ((c, b) :: t) cc m r = (c, b) :: stateAppend t cc m r from by
        simp [stateAppend, hc]] at hg
      rcases List.mem_cons.mp hg with he | hmem
      · subst he
        exact hh
      · exact ih ht g hmem

/-- Deleting an entry preserves the property. -/
theorem groupsWF_eraseCC (cd : CountryData) (cc : Val) (h : groupsWF cd) :
    groupsWF (eraseCC cd cc) := by
  induction cd with
  | nil => intro g hg; simp [eraseCC] at hg
  | cons q t ih =>
    obtain ⟨c, b⟩ := q
    have hh : bucketWF b := h (c, b) (List.mem_cons_self _ _)
    have ht : groupsWF t := fun g hg => h g (List.mem_cons_of_mem _ hg)
    intro g hg
    by_cases hc : c = cc
    · rw [show eraseCC ((c, b) :: t) cc = t from by simp [eraseCC, hc]] at hg
      exact ht g hg
    · rw [show eraseCC ((c, b) :: t) cc = (c, b) :: eraseCC t cc from by
        simp [eraseCC, hc]] at hg
      rcases List.mem_cons.mp hg with he | hmem
      · subst he
        exact hh
      · exact ih ht g hmem

/-- The looked-up bucket of a well-formed accumulator is well-formed. -/
theorem bucketWF_bucketOf (cd : CountryData) (cc : Val) (h : groupsWF cd) :
    bucketWF (bucketOf cd cc) := by
  induction cd with
  | nil => intro p hp; simp [bucketOf] at hp
  | cons q t ih =>
    obtain ⟨c, b⟩ := q
    have hh : bucketWF b := h (c, b) (List.mem_cons_self _ _)
    have ht : groupsWF t := fun g hg => h g (List.mem_cons_of_mem _ hg)
    by_cases hc : c = cc
    · rw [show bucketOf ((c, b) :: t) cc = b from by simp [bucketOf, hc]]
      exact hh
    · rw [show bucketOf ((c, b) :: t) cc = bucketOf t cc from by
        simp [bucketOf, hc]]
      exact ih ht

/-- One aggregator step preserves well-formedness of buffer and output. -/
theorem aggRecord_wf (pd : Option Val → Val) (st : AggSt) (m : String)
    (r : Record) (h : groupsWF st.buf ∧ groupsWF st.out) :
    groupsWF (aggRecord pd st m r).buf ∧ groupsWF (aggRecord pd st m r).out := by
  obtain ⟨hbuf, hout⟩ := h
  unfold aggRecord
  by_cases hth : 10000 ≤ countryCount (stateAppend st.buf (recCC r) m (normRec pd r)) (recCC r)
  · rw [if_pos hth]
    refine ⟨groupsWF_eraseCC _ _ (groupsWF_stateAppend st.buf (recCC r) m (normRec pd r) hbuf), ?_⟩
    intro g hg
    rcases List.mem_append.mp hg with hmem | hmem
    · exact hout g hmem
    · rw [List.mem_singleton] at hmem
      subst hmem
      exact bucketWF_bucketOf _ _ (groupsWF_stateAppend st.buf (recCC r) m (normRec pd r) hbuf)
  · rw [if_neg hth]
    exact ⟨groupsWF_stateAppend st.buf (recCC r) m (normRec pd r) hbuf, hout⟩

/-- C7 (amended): `generate_dataset` does not skip a zero-record model (an
empty model list makes it fail, see the counterexample); instead, the
groups `aggregate_by_country` emits contain only models with at least one
record, so along the pipeline no zero-record model ever reaches resource
generation. -/
theorem aggregate_nonempty_models_c7 (pd : Option Val → Val)
    (streams : List (String × List Record)) :
    ∀ g ∈ aggregate_by_country pd streams, ∀ p ∈ g.2, p.2 ≠ [] := by
  have hwf : ∀ (l : List (String × Record)) (st : AggSt),
      groupsWF st.buf ∧ groupsWF st.out →
      groupsWF (l.foldl (aggStep pd) st).buf ∧ groupsWF (l.foldl (aggStep pd) st).out := by
    intro l
    induction l with
    | nil => intro st h; exact h
    | cons p t ih =>
      intro st h
      rw [List.foldl_cons]
      exact ih _ (aggRecord_wf pd st p.1 p.2 h)
  have hrun := hwf (flattenStreams streams) ⟨[], []⟩
    ⟨fun g hg => by simp at hg, fun g hg => by simp at hg⟩
  obtain ⟨hbuf, hout⟩ := hrun
  intro g hg
  unfold aggregate_by_country at hg
  rcases List.mem_append.mp hg with hmem | hmem
  · exact hout g hmem
  · exact hbuf g (List.mem_of_mem_filter hmem)

/-- Witness for C7 (amended) at a concrete run and group. -/
theorem aggregate_nonempty_models_c7_witness :
    [normRec pdFix recAfg] ≠ ([] : List Record) :=
  aggregate_nonempty_models_c7 pdFix [("food", [recAfg])]
    (Val.vStr "AFG", [("food", [normRec pdFix recAfg])]) (by decide)
    ("food", [normRec pdFix recAfg]) (by decide)

/-! ## Date-normalizer lemmas (C5, C9). -/

/-- Decimal digits round-trip through their character form. -/
theorem digitVal?_digitChar (k : Nat) (h : k < 10) :
    digitVal? (digitChar k) = some k := by
  interval_cases k <;> decide

/-- Digit characters are not `'Z'`. -/
theorem digitChar_ne_Z (k : Nat) (h : k < 10) : digitChar k ≠ 'Z' := by
  interval_cases k <;> decide

/-- `parse2` undoes `pad2` for two-digit numbers. -/
theorem parse2_pad2 (n : Nat) (h : n ≤ 99) (r : List Char) :
    parse2 (pad2 n ++ r) = some (n, r) := by
  have e1 := digitVal?_digitChar (n / 10) (by omega)
  have e2 := digitVal?_digitChar (n % 10) (by omega)
  simp only [pad2, List.cons_append, List.nil_append, parse2, e1, e2,
    Option.bind_eq_bind, Option.some_bind]
  have : n / 10 * 10 + n % 10 = n := by omega
  rw [this]
  rfl

/-- `parse4` undoes `pad4` for four-digit numbers. -/
theorem parse4_pad4 (n : Nat) (h : n ≤ 9999) (r : List Char) :
    parse4 (pad4 n ++ r) = some (n, r) := by
  have e1 := digitVal?_digitChar (n / 1000) (by omega)
  have e2 := digitVal?_digitChar (n / 100 % 10) (by omega)
  have e3 := digitVal?_digitChar (n / 10 % 10) (by omega)
  have e4 := digitVal?_digitChar (n % 10) (by omega)
  simp only [pad4, List.cons_append, List.nil_append, parse4, e1, e2, e3, e4,
    Option.bind_eq_bind, Option.some_bind]
  have : ((n / 1000 * 10 + n / 100 % 10) * 10 + n / 10 % 10) * 10 + n % 10 = n := by
    omega
  rw [this]
  rfl

/-- The date parser undoes `date.isoformat()` for in-range dates. -/
theorem parseDateCore_iso (d : PyDate) (hy : d.year ≤ 9999) (hm : d.month ≤ 99)
    (hd : d.day ≤ 99) : parseDateCore (isoChars d) = some (d, []) := by
  simp only [isoChars, parseDateCore, parse4_pad4 d.year hy,
    Option.bind_eq_bind, Option.some_bind]
  simp only [parse2_pad2 d.month hm, Option.some_bind]
  have e : pad2 d.day = pad2 d.day ++ [] := by rw [List.append_nil]
  rw [e, parse2_pad2 d.day hd]
  rfl

/-- `fromisoformat` undoes `date.isoformat()` on valid dates, giving the
same date with a zero time and no offset. -/
theorem fromIso_isoChars (d : PyDate) (hv : validDateB d = true) :
    fromIsoChars (isoChars d) = some { date := d } := by
  have hb : d.year ≤ 9999 ∧ d.month ≤ 12 ∧ d.day ≤ 31 := by
    simp only [validDateB, Bool.and_eq_true, decide_eq_true_eq] at hv
    have hdm : daysInMonth d.year d.month ≤ 31 := by
      unfold daysInMonth
      split
      · split <;> omega
      · split <;> omega
    omega
  unfold fromIsoChars
  rw [parseDateCore_iso d hb.1 (by omega) (by omega)]
  simp only [hv, if_true]

/-- Replacing `'Z'` does nothing to a string without `'Z'`. -/
theorem replaceZChars_eq_self (l : List Char) (h : ∀ c ∈ l, c ≠ 'Z') :
    replaceZChars l = l := by
  induction l with
  | nil => rfl
  | cons c t ih =>
    have hc : c ≠ 'Z' := h c (List.mem_cons_self _ _)
    simp only [replaceZChars, if_neg hc]
    rw [ih (fun c2 hc2 => h c2 (List.mem_cons_of_mem _ hc2))]
    rfl

/-- The characters of `date.isoformat()` are digits and dashes — no `'Z'`. -/
theorem isoChars_no_Z (d : PyDate) (hy : d.year ≤ 9999) (hm : d.month ≤ 99)
    (hd : d.day ≤ 99) : ∀ c ∈ isoChars d, c ≠ 'Z' := by
  intro c hc
  have hmem : c = digitChar (d.year / 1000) ∨ c = digitChar (d.year / 100 % 10) ∨
      c = digitChar (d.year / 10 % 10) ∨ c = digitChar (d.year % 10) ∨
      c = '-' ∨ c = digitChar (d.month / 10) ∨ c = digitChar (d.month % 10) ∨
      c = digitChar (d.day / 10) ∨ c = digitChar (d.day % 10) := by
    simpa [isoChars, pad4, pad2, List.mem_append, List.mem_cons, or_assoc,
      or_comm, or_left_comm] using hc
  rcases hmem with rfl | rfl | rfl | rfl | rfl | rfl | rfl | rfl | rfl
  · exact digitChar_ne_Z _ (by omega)
  · exact digitChar_ne_Z _ (by omega)
  · exact digitChar_ne_Z _ (by omega)
  · exact digitChar_ne_Z _ (by omega)
  · decide
  · exact digitChar_ne_Z _ (by omega)
  · exact digitChar_ne_Z _ (by omega)
  · exact digitChar_ne_Z _ (by omega)
  · exact digitChar_ne_Z _ (by omega)

/-- An `isoformat` string is never empty. -/
theorem isoDateStr_ne_empty (d : PyDate) : isoDateStr d ≠ "" := by
  simp [isoDateStr, isoChars, pad4, String.ext_iff]

/-- `toList` of the rendered string gives back the characters. -/
theorem isoDateStr_toList (d : PyDate) : (isoDateStr d).toList = isoChars d := rfl

/-- Inversion: every datetime the parser accepts carries a valid date
(each success path passes the constructor's validation). -/
theorem fromIso_validDate (l : List Char) (dt : PyDateTime)
    (h : fromIsoChars l = some dt) : validDateB dt.date = true := by
  unfold fromIsoChars at h
  cases hp : parseDateCore l with
  | none => rw [hp] at h; exact absurd h (by simp)
  | some pr =>
    obtain ⟨d, rest⟩ := pr
    rw [hp] at h
    dsimp only at h
    cases rest with
    | nil =>
      dsimp only at h
      by_cases hv : validDateB d
      · rw [if_pos hv] at h
        have he := Option.some.inj h
        rw [← he]
        exact hv
      · rw [if_neg hv] at h
        exact absurd h (by simp)
    | cons c tl =>
      dsimp only at h
      cases ht : parseTimePart tl with
      | none => rw [ht] at h; exact absurd h (by simp)
      | some tp =>
        obtain ⟨hh, mi, ss, us, rest2⟩ := tp
        rw [ht] at h
        dsimp only at h
        cases rest2 with
        | nil =>
          dsimp only at h
          by_cases hv : (validDateB d && validTimeB hh mi ss) = true
          · rw [if_pos hv] at h
            have he := Option.some.inj h
            rw [← he]
            exact (Bool.and_eq_true_iff.mp hv).1
          · rw [if_neg hv] at h
            exact absurd h (by simp)
        | cons c2 tl2 =>
          dsimp only at h
          by_cases hpm : c2 = '+' ∨ c2 = '-'
          · rw [if_pos hpm] at h
            cases ho : parseOffsetTail tl2 with
            | none => rw [ho] at h; exact absurd h (by simp)
            | some off =>
              obtain ⟨oh, om, os⟩ := off
              rw [ho] at h
              dsimp only at h
              by_cases hv : (validDateB d && validTimeB hh mi ss && validOffB oh om os) = true
              · rw [if_pos hv] at h
                have he := Option.some.inj h
                rw [← he]
                exact (Bool.and_eq_true_iff.mp (Bool.and_eq_true_iff.mp hv).1).1
              · rw [if_neg hv] at h
                exact absurd h (by simp)
          · rw [if_neg hpm] at h
            exact absurd h (by simp)

/-- C5: `format_date` (the date normalizer) is total and never raises:
the empty string maps to the empty string, an unparsable string falls back
to the original raw string, and a parsable one maps to the canonical
`YYYY-MM-DD` rendering of a valid date. -/
theorem format_date_fallback_c5 (strp : String → String → Option PyDateTime)
    (s : String) :
    (s = "" → format_date strp s none = "") ∧
    (s ≠ "" → fromIsoChars (replaceZChars s.toList) = none →
      format_date strp s none = s) ∧
    (∀ dt, s ≠ "" → fromIsoChars (replaceZChars s.toList) = some dt →
      format_date strp s none = isoDateStr dt.date ∧
        validDateB dt.date = true) := by
  refine ⟨?_, ?_, ?_⟩
  · intro h
    simp only [format_date, if_pos h]
  · intro h1 h2
    simp only [format_date, if_neg h1, h2]
  · intro dt h1 h2
    exact ⟨by simp only [format_date, if_neg h1, h2], fromIso_validDate _ _ h2⟩

/-- Witness for C5: a malformed date string comes back unchanged, and a
parsable one is canonicalized. -/
theorem format_date_fallback_c5_witness :
    format_date strpFix "not-a-date" none = "not-a-date" ∧
    format_date strpFix "2024-02-29T08:15:30Z" none = "2024-02-29" := by
  constructor
  · exact (format_date_fallback_c5 strpFix "not-a-date").2.1 (by decide) (by decide)
  · exact ((format_date_fallback_c5 strpFix "2024-02-29T08:15:30Z").2.2
      { date := ⟨2024, 2, 29⟩, hour := 8, minute := 15, second := 30,
        hasTz := true, tzHour := 0, tzMinute := 0 }
      (by decide) (by decide)).1

/-- C9: date normalization is idempotent — on any input, re-normalizing
the normalizer's output returns it unchanged: the empty case is fixed, the
fallback case returns the input itself, and the canonical `YYYY-MM-DD`
rendering of a valid date re-parses to the same date. -/
theorem format_date_idempotent_c9 (strp : String → String → Option PyDateTime)
    (s : String) :
    format_date strp (format_date strp s none) none = format_date strp s none := by
  by_cases h0 : s = ""
  · subst h0
    rfl
  · cases hp : fromIsoChars (replaceZChars s.toList) with
    | none =>
      have e : format_date strp s none = s := by
        simp only [format_date, if_neg h0, hp]
      rw [e]
      exact e
    | some dt =>
      have hv : validDateB dt.date = true := fromIso_validDate _ _ hp
      have hb : dt.date.year ≤ 9999 ∧ dt.date.month ≤ 99 ∧ dt.date.day ≤ 99 := by
        simp only [validDateB, Bool.and_eq_true, decide_eq_true_eq] at hv
        have hdm : daysInMonth dt.date.year dt.date.month ≤ 31 := by
          unfold daysInMonth
          split
          · split <;> omega
          · split <;> omega
        omega
      have e : format_date strp s none = isoDateStr dt.date := by
        simp only [format_date, if_neg h0, hp]
      rw [e]
      have hne : isoDateStr dt.date ≠ "" := isoDateStr_ne_empty dt.date
      have hnoZ : replaceZChars (isoDateStr dt.date).toList = isoChars dt.date := by
        rw [isoDateStr_toList]
        exact replaceZChars_eq_self _ (isoChars_no_Z dt.date hb.1 hb.2.1 hb.2.2)
      have hparse : fromIsoChars (replaceZChars (isoDateStr dt.date).toList) =
          some { date := dt.date } := by
        rw [hnoZ]
        exact fromIso_isoChars dt.date hv
      simp only [format_date, if_neg hne, hparse]
